import Mathlib

/-!
Shallow embedding of the frame-level inference and scoring pipeline of the
BFH-SxH repository (`ml_pipeline/ranking.py`, `ml_pipeline/inference_service.py`,
`ml_pipeline/config.py`).  Python dictionaries become association lists in
insertion order, floating point numbers become rationals, numpy masks become
flattened lists of pixel class indices, and image tensors are modelled at the
level of their shapes (a list of dimension sizes), with `Option` encoding
raised exceptions.
-/

namespace BFH

open List

/-! ### Taxonomies (`ml_pipeline/config.py`)

`PIXEL_VALUE_TO_LABEL` maps mask pixel codes to labels; its values in
insertion order form the ordered label list used by the analyzer
(`self.label_list = list(PIXEL_VALUE_TO_LABEL.values())`), so class index `i`
means the `i`-th entry here.  `PHASE_DEFINITIONS` is the ordered phase
taxonomy; only the names are used by the inference path. -/

def labelList : List String :=
  ["background", "liver", "gallbladder", "cystic_duct", "cystic_artery",
   "common_bile_duct", "grasper", "hook", "scissors"]

def phaseNames : List String :=
  ["pre_op", "port_setup", "exposure", "critical_dissection",
   "clip_and_divide", "closure"]

/-! ### Scoring engine (`ml_pipeline/ranking.py`) -/

/-- Table `PHASE_WEIGHTS` from `ranking.py`. -/
def PHASE_WEIGHTS : List (String × ℚ) :=
  [("pre_op", 0.2), ("port_setup", 0.4), ("exposure", 0.6),
   ("critical_dissection", 0.9), ("clip_and_divide", 1.0), ("closure", 0.5)]

/-- Table `OBJECT_PRIORITIES` from `ranking.py`. -/
def OBJECT_PRIORITIES : List (String × ℚ) :=
  [("cystic_duct", 1.0), ("cystic_artery", 1.0), ("common_bile_duct", 0.9),
   ("grasper", 0.6), ("hook", 0.5), ("scissors", 0.7),
   ("gallbladder", 0.8), ("liver", 0.4)]

/-- Lookup `PHASE_WEIGHTS.get(phase, 0.3)`. -/
def phaseWeight (phase : String) : ℚ :=
  (PHASE_WEIGHTS.lookup phase).getD 0.3

/-- Lookup `OBJECT_PRIORITIES.get(obj, 0.2)`. -/
def objectPriority (obj : String) : ℚ :=
  (OBJECT_PRIORITIES.lookup obj).getD 0.2

/-- Function `calculate_phase_score`: accumulate `prob * weight` over the mapping in
its iteration order, then cap by `min(score, 1.0)`. -/
def calculate_phase_score (phase_probabilities : List (String × ℚ)) : ℚ :=
  min (phase_probabilities.foldl (fun score p => score + p.2 * phaseWeight p.1) 0) 1

/-- Function `calculate_object_score`: accumulate priorities over the iterable of
object labels, then `min(total, 3.0) / 3.0`. -/
def calculate_object_score (objects : List String) : ℚ :=
  min (objects.foldl (fun total obj => total + objectPriority obj) 0) 3 / 3

/-- The default `ai_bonus = 0.1` of `compute_importance`. -/
def aiBonus : ℚ := 0.1

/-- Function `compute_importance` with its default `ai_bonus`:
`max(0.0, min(1.0, 0.4*q/100 + 0.35*phase + 0.25*object + ai_bonus)) * 100.0`. -/
def compute_importance (quality_score phase_score object_score : ℚ) : ℚ :=
  let normalized_quality := quality_score / 100
  let combined :=
    0.4 * normalized_quality + 0.35 * phase_score + 0.25 * object_score + aiBonus
  max 0 (min 1 combined) * 100

/-- Function `empty_phase_probabilities`: the uniform distribution over the phase
taxonomy. -/
def empty_phase_probabilities : List (String × ℚ) :=
  phaseNames.map (fun phase => (phase, 1 / (phaseNames.length : ℚ)))

/-- Spec-side formula `clamp01`, written from the specification's words. -/
def clamp01 (x : ℚ) : ℚ := max 0 (min 1 x)

/-! ### Generic helper lemmas -/

/-- Folding `+ f x` over a list starting from `a` is `a` plus the sum of the
mapped list. -/
theorem foldl_add_eq_sum {α : Type} (f : α → ℚ) :
    ∀ (l : List α) (a : ℚ), l.foldl (fun s x => s + f x) a = a + (l.map f).sum := by
  intro l
  induction l with
  | nil => intro a; simp
  | cons x xs ih =>
    intro a
    simp only [List.foldl_cons, List.map_cons, List.sum_cons]
    rw [ih]
    ring

/-- Every phase weight is nonnegative (table values are positive, default is
`0.3`). -/
theorem phaseWeight_nonneg (phase : String) : 0 ≤ phaseWeight phase := by
  unfold phaseWeight PHASE_WEIGHTS
  simp only [List.lookup]
  repeat' split
  all_goals norm_num

/-- Every object priority is nonnegative (table values are positive, default
is `0.2`). -/
theorem objectPriority_nonneg (obj : String) : 0 ≤ objectPriority obj := by
  unfold objectPriority OBJECT_PRIORITIES
  simp only [List.lookup]
  repeat' split
  all_goals norm_num

/-- Function `compute_importance` always lands in `[0, 100]`, whatever its inputs. -/
theorem compute_importance_bounds (q p o : ℚ) :
    0 ≤ compute_importance q p o ∧ compute_importance q p o ≤ 100 := by
  unfold compute_importance
  constructor
  · exact mul_nonneg (le_max_left 0 _) (by norm_num)
  · calc max 0 (min 1 (0.4 * (q / 100) + 0.35 * p + 0.25 * o + aiBonus)) * 100
        ≤ 1 * 100 := by
          apply mul_le_mul_of_nonneg_right _ (by norm_num)
          exact max_le (by norm_num) (min_le_left _ _)
    _ = 100 := by norm_num

section ClaimC2

/-- C2.  The scoring formulas match the specification: the phase score is
`min(1, Σ prob * weight)` over the probability mapping, the object score is
`min(3, Σ priority)` over the distinct detected labels divided by `3`, and the
importance is `clamp01(0.4*(q/100) + 0.35*phase + 0.25*object + 0.1) * 100`
with the `ai_bonus` term fixed at the constant `0.1`. -/
theorem C2_scoring_formulas :
    (∀ d : List (String × ℚ),
      calculate_phase_score d = min 1 ((d.map (fun p => p.2 * phaseWeight p.1)).sum)) ∧
    (∀ objects : List String, objects.Nodup →
      calculate_object_score objects = min 3 ((objects.map objectPriority).sum) / 3) ∧
    (∀ q p o : ℚ,
      compute_importance q p o =
        clamp01 (0.4 * (q / 100) + 0.35 * p + 0.25 * o + 0.1) * 100) := by
  refine ⟨fun d => ?_, fun objects _ => ?_, fun q p o => ?_⟩
  · unfold calculate_phase_score
    rw [foldl_add_eq_sum, zero_add, min_comm]
  · unfold calculate_object_score
    rw [foldl_add_eq_sum, zero_add, min_comm]
  · unfold compute_importance clamp01 aiBonus
    norm_num

/-- Witness for C2's object-score part on the duplicate-free label list
`["grasper", "hook"]`. -/
theorem C2_scoring_formulas_witness :
    calculate_object_score ["grasper", "hook"] =
      min 3 ((["grasper", "hook"].map objectPriority).sum) / 3 :=
  C2_scoring_formulas.2.1 ["grasper", "hook"] (by decide)

end ClaimC2

section ClaimC1

/-- C1 counterexample.  On the scenario's inputs the phase score is `1` and
the object score is `1/3` as claimed, but the combined sum is
`0.4*0.8 + 0.35*1 + 0.25*(1/3) + 0.1 = 64/75 < 1`, so the importance is
`256/3 ≈ 85.33`, not `100`: the claimed saturation does not happen. -/
theorem C1_counterexample :
    calculate_phase_score
      [("pre_op", 0), ("port_setup", 0), ("exposure", 0),
       ("critical_dissection", 0), ("clip_and_divide", 1), ("closure", 0)] = 1 ∧
    calculate_object_score ["cystic_artery"] = 1 / 3 ∧
    compute_importance 80 1 (1 / 3) ≠ 100 := by
  refine ⟨?_, ?_, ?_⟩
  · simp [calculate_phase_score, phaseWeight, PHASE_WEIGHTS, List.lookup, List.foldl]
    norm_num
  · simp [calculate_object_score, objectPriority, OBJECT_PRIORITIES, List.lookup,
      List.foldl, min_def]
    norm_num
  · norm_num [compute_importance, aiBonus, min_def, max_def]

/-- C1 amended.  Same scenario, with the importance the code actually
produces: `clamp01(64/75) * 100 = 256/3 ≈ 85.33` (no saturation occurs). -/
theorem C1_amended_exact_scores :
    calculate_phase_score
      [("pre_op", 0), ("port_setup", 0), ("exposure", 0),
       ("critical_dissection", 0), ("clip_and_divide", 1), ("closure", 0)] = 1 ∧
    calculate_object_score ["cystic_artery"] = 1 / 3 ∧
    compute_importance 80 1 (1 / 3) = 256 / 3 := by
  refine ⟨?_, ?_, ?_⟩
  · simp [calculate_phase_score, phaseWeight, PHASE_WEIGHTS, List.lookup, List.foldl]
    norm_num
  · simp [calculate_object_score, objectPriority, OBJECT_PRIORITIES, List.lookup,
      List.foldl, min_def]
    norm_num
  · norm_num [compute_importance, aiBonus, min_def, max_def]

end ClaimC1

section ClaimC9

/-- C9.  `compute_importance` is monotonically non-decreasing in the quality,
phase and object scores jointly (hence in each argument separately), and its
value lies in `[0, 100]` for every rational quality score, including values
outside the documented `0..100` range. -/
theorem C9_importance_monotone_bounded :
    (∀ q q' p p' o o' : ℚ, q ≤ q' → p ≤ p' → o ≤ o' →
      compute_importance q p o ≤ compute_importance q' p' o') ∧
    (∀ q p o : ℚ, 0 ≤ compute_importance q p o ∧ compute_importance q p o ≤ 100) := by
  constructor
  · intro q q' p p' o o' hq hp ho
    simp only [compute_importance]
    gcongr
  · exact compute_importance_bounds

/-- Witness for C9 at concrete inputs: monotonicity from quality `10` to `20`,
and boundedness at the out-of-range quality `-50`. -/
theorem C9_importance_monotone_bounded_witness :
    compute_importance 10 (1/2) 0 ≤ compute_importance 20 (1/2) 0 ∧
    (0 ≤ compute_importance (-50) (1/2) (1/2) ∧
      compute_importance (-50) (1/2) (1/2) ≤ 100) :=
  ⟨C9_importance_monotone_bounded.1 10 20 (1/2) (1/2) 0 0 (by norm_num) le_rfl le_rfl,
   C9_importance_monotone_bounded.2 (-50) (1/2) (1/2)⟩

end ClaimC9

/-! ### Phase probability packaging
(`SurgicalSceneAnalyzer._phase_probabilities_dict`) -/

/-- Method `_phase_probabilities_dict`: zip the taxonomy names with the softmax
vector, or substitute the uniform fallback when the vector length does not
match the taxonomy length. -/
def phase_probabilities_dict (probs : List ℚ) : List (String × ℚ) :=
  if probs.length ≠ phaseNames.length then empty_phase_probabilities
  else phaseNames.zip probs

section ClaimC4

/-- C4.  When the phase-model output length differs from the taxonomy length
(6), the probability mapping is replaced by the uniform distribution giving
exactly `1/6` to each of the 6 taxonomy phases, and its key sequence is the
full taxonomy. -/
theorem C4_uniform_fallback (probs : List ℚ) (h : probs.length ≠ 6) :
    phase_probabilities_dict probs =
      phaseNames.map (fun phase => (phase, (1 : ℚ) / 6)) ∧
    (phase_probabilities_dict probs).map Prod.fst = phaseNames := by
  have hlen : phaseNames.length = 6 := by decide
  have hd : phase_probabilities_dict probs = empty_phase_probabilities := by
    unfold phase_probabilities_dict
    rw [hlen, if_pos h]
  constructor
  · rw [hd]
    unfold empty_phase_probabilities
    rw [hlen]
    norm_num
  · rw [hd]
    rfl

/-- Witness for C4 on a length-1 output vector. -/
theorem C4_uniform_fallback_witness :
    phase_probabilities_dict [1] =
      phaseNames.map (fun phase => (phase, (1 : ℚ) / 6)) ∧
    (phase_probabilities_dict [1]).map Prod.fst = phaseNames :=
  C4_uniform_fallback [1] (by decide)

end ClaimC4

/-! ### Backend selection (`SurgicalSceneAnalyzer._build_segmentation_model`)

The decision depends on whether an advanced (EndoViT) checkpoint path is
configured, whether that file exists on disk, whether the EndoViT
dependencies import cleanly, and whether the advanced constructor raises.
Each of those externally determined facts is a boolean input; the `try`
block that catches a constructor exception becomes the `ctorFails` branch.
The Lean function is total, mirroring that no exception escapes selection. -/

inductive Backend where
  | unet : Backend
  | endovit : Backend
deriving DecidableEq

/-- The backend identifier string the analyzer records in
`self.segmentation_backend`. -/
def backendId : Backend → String
  | Backend.unet => "unet"
  | Backend.endovit => "endovit"

/-- Method `_build_segmentation_model`, at the level of its control flow. -/
def build_segmentation_model (configured checkpointExists depsAvailable
    ctorFails : Bool) : Backend :=
  if configured && checkpointExists && depsAvailable then
    if ctorFails then Backend.unet else Backend.endovit
  else Backend.unet

section ClaimC6

/-- C6.  If the advanced checkpoint is missing on disk, or the EndoViT
dependencies are unavailable, or the advanced constructor raises, backend
selection still completes (the selector is a total function), the default
UNet backend is chosen, and the recorded identifier is `"unet"`. -/
theorem C6_backend_fallback (configured checkpointExists depsAvailable
    ctorFails : Bool)
    (h : checkpointExists = false ∨ depsAvailable = false ∨ ctorFails = true) :
    build_segmentation_model configured checkpointExists depsAvailable ctorFails =
      Backend.unet ∧
    backendId (build_segmentation_model configured checkpointExists depsAvailable
      ctorFails) = "unet" := by
  have : build_segmentation_model configured checkpointExists depsAvailable
      ctorFails = Backend.unet := by
    unfold build_segmentation_model
    rcases h with h | h | h <;> subst h <;> simp
  exact ⟨this, by rw [this]; rfl⟩

/-- Witness for C6: checkpoint configured and dependencies present, but the
file does not exist on disk. -/
theorem C6_backend_fallback_witness :
    build_segmentation_model true false true false = Backend.unet ∧
    backendId (build_segmentation_model true false true false) = "unet" :=
  C6_backend_fallback true false true false (Or.inl rfl)

end ClaimC6

/-! ### Frame preprocessing (`SurgicalSceneAnalyzer.preprocess_image`)

Modelled at the level of tensor shapes, which is what decides acceptance
versus a raised exception: scaling by `255` keeps the shape;
`permute(2, 0, 1)` demands exactly three dimensions; `unsqueeze(0)` prepends
a dimension; bilinear `interpolate` to `(512, 512)` demands a 4-D input with
positive spatial sizes and replaces the last two sizes; subtracting the
`(1, 3, 1, 1)` ImageNet mean and dividing by the std broadcast dimensionwise
(sizes must match or one of them be `1`).  `none` models a raised error. -/

def permute201 (s : List ℕ) : Option (List ℕ) :=
  match s with
  | [a, b, c] => some [c, a, b]
  | _ => none

def unsqueeze0 (s : List ℕ) : List ℕ := 1 :: s

def interpolateTo (target : ℕ) (s : List ℕ) : Option (List ℕ) :=
  match s with
  | [n, c, h, w] => if 0 < h ∧ 0 < w then some [n, c, target, target] else none
  | _ => none

def broadcastDim (a b : ℕ) : Option ℕ :=
  if a = b then some a
  else if a = 1 then some b
  else if b = 1 then some a
  else none

def broadcastShape : List ℕ → List ℕ → Option (List ℕ)
  | [], [] => some []
  | a :: as, b :: bs => do
    let d ← broadcastDim a b
    let rest ← broadcastShape as bs
    pure (d :: rest)
  | _, _ => none

/-- Shape behaviour of `preprocess_image` with the default
`image_size = 512`: the result is the output shape, `none` a raised error. -/
def preprocess_image_shape (imageShape : List ℕ) : Option (List ℕ) :=
  match permute201 imageShape with
  | none => none
  | some permuted =>
    match interpolateTo 512 (unsqueeze0 permuted) with
    | none => none
    | some resized =>
      match broadcastShape resized [1, 3, 1, 1] with
      | none => none
      | some centered => broadcastShape centered [1, 3, 1, 1]

section ClaimC8

/-- C8 counterexample.  A malformed single-channel `4×5×1` pixel array is not
rejected: `permute` succeeds on any rank-3 array and the `(1, 3, 1, 1)`
normalization constants broadcast over the singleton channel dimension, so
`preprocess_image` returns a `(1, 3, 512, 512)` tensor instead of raising. -/
theorem C8_counterexample :
    preprocess_image_shape [4, 5, 1] = some [1, 3, 512, 512] := by decide

/-- C8 amended.  `preprocess_image` rejects every pixel array whose rank is
not 3, every rank-3 array whose channel count is neither 1 nor 3 (the
broadcast against the `(1, 3, 1, 1)` normalization constants fails), and
every rank-3 array with a zero spatial dimension (bilinear `interpolate`
refuses empty inputs); but a rank-3 array with a single channel is silently
accepted and broadcast up to 3 channels rather than rejected. -/
theorem C8_amended_shape_rejection (s : List ℕ) :
    (s.length ≠ 3 → preprocess_image_shape s = none) ∧
    (∀ h w c : ℕ, s = [h, w, c] → c ≠ 1 → c ≠ 3 →
      preprocess_image_shape s = none) ∧
    (∀ h w c : ℕ, s = [h, w, c] → h = 0 ∨ w = 0 →
      preprocess_image_shape s = none) ∧
    (∀ h w : ℕ, 0 < h → 0 < w →
      preprocess_image_shape [h, w, 1] = some [1, 3, 512, 512]) := by
  refine ⟨fun hrank => ?_, fun h w c hs hc1 hc3 => ?_,
    fun h w c hs hzero => ?_, fun h w hh hw => ?_⟩
  · match s, hrank with
    | [], _ => rfl
    | [_], _ => rfl
    | [_, _], _ => rfl
    | _ :: _ :: _ :: _ :: _, _ => rfl
    | [a, b, c], hrank => exact absurd rfl hrank
  · subst hs
    simp only [preprocess_image_shape, permute201, unsqueeze0, interpolateTo]
    by_cases hpos : 0 < h ∧ 0 < w
    · rw [if_pos hpos]
      simp [broadcastShape, broadcastDim, hc1, hc3]
    · rw [if_neg hpos]
  · subst hs
    simp only [preprocess_image_shape, permute201, unsqueeze0, interpolateTo]
    rw [if_neg (show ¬(0 < h ∧ 0 < w) by omega)]
  · simp only [preprocess_image_shape, permute201, unsqueeze0, interpolateTo]
    rw [if_pos ⟨hh, hw⟩]
    rfl

/-- Witness for C8's amended statement: a rank-2 array, a `4×5×7` array and
a zero-height `0×5×3` array are rejected, while a `4×5×1` single-channel
array passes. -/
theorem C8_amended_shape_rejection_witness :
    preprocess_image_shape [4, 5] = none ∧
    preprocess_image_shape [4, 5, 7] = none ∧
    preprocess_image_shape [0, 5, 3] = none ∧
    preprocess_image_shape [4, 5, 1] = some [1, 3, 512, 512] :=
  ⟨(C8_amended_shape_rejection [4, 5]).1 (by decide),
   (C8_amended_shape_rejection [4, 5, 7]).2.1 4 5 7 rfl (by decide) (by decide),
   (C8_amended_shape_rejection [0, 5, 3]).2.2.1 0 5 3 rfl (Or.inl rfl),
   (C8_amended_shape_rejection [4, 5, 1]).2.2.2 4 5 (by decide) (by decide)⟩

end ClaimC8

/-! ### Phase label selection (`analyze_frame`)

`phase_label = max(phase_prob_dict, key=phase_prob_dict.get)` iterates the
dictionary keys in insertion order (the taxonomy order) and keeps the current
maximum, replacing it only on a strictly greater probability — so the first
key attaining the maximum wins.  Keys are distinct, so iterating the
`(key, value)` pairs is equivalent. -/

/-- Python's `max(d, key=d.get)` over an association list: the first entry
whose value is maximal (the running maximum is replaced only on `>`). -/
def dict_argmax (d : List (String × ℚ)) : String × ℚ :=
  match d with
  | [] => ("", 0)
  | x :: xs => xs.foldl (fun acc y => if acc.2 < y.2 then y else acc) x

/-- The phase label `analyze_frame` stores, as a function of the raw phase
probability vector. -/
def analyze_phase_label (probs : List ℚ) : String :=
  (dict_argmax (phase_probabilities_dict probs)).1

/-- Characterization of the running-maximum fold: its result either is the
seed, which then dominates the whole list, or splits the list into a strict
prefix of strictly smaller values and a suffix of no-larger values. -/
theorem argmax_foldl_split :
    ∀ (xs : List (String × ℚ)) (x : String × ℚ),
      ∃ r : String × ℚ,
        xs.foldl (fun acc y => if acc.2 < y.2 then y else acc) x = r ∧
          ((r = x ∧ ∀ a ∈ xs, a.2 ≤ x.2) ∨
            ∃ l₁ l₂, xs = l₁ ++ r :: l₂ ∧ x.2 < r.2 ∧
              (∀ a ∈ l₁, a.2 < r.2) ∧ (∀ a ∈ l₂, a.2 ≤ r.2)) := by
  intro xs
  induction xs with
  | nil => exact fun x => ⟨x, rfl, Or.inl ⟨rfl, by simp⟩⟩
  | cons y ys ih =>
    intro x
    simp only [List.foldl_cons]
    by_cases hxy : x.2 < y.2
    · rw [if_pos hxy]
      obtain ⟨r, hr, hcase⟩ := ih y
      refine ⟨r, hr, Or.inr ?_⟩
      rcases hcase with ⟨req, hle⟩ | ⟨l₁, l₂, hsplit, hlt, h₁, h₂⟩
      · subst req
        exact ⟨[], ys, rfl, hxy, by simp, hle⟩
      · refine ⟨y :: l₁, l₂, by rw [hsplit]; rfl, lt_trans hxy hlt, ?_, h₂⟩
        intro a ha
        rcases List.mem_cons.mp ha with ha | ha
        · rw [ha]; exact hlt
        · exact h₁ a ha
    · rw [if_neg hxy]
      push_neg at hxy
      obtain ⟨r, hr, hcase⟩ := ih x
      refine ⟨r, hr, ?_⟩
      rcases hcase with ⟨req, hle⟩ | ⟨l₁, l₂, hsplit, hlt, h₁, h₂⟩
      · refine Or.inl ⟨req, fun a ha => ?_⟩
        rcases List.mem_cons.mp ha with ha | ha
        · rw [ha]; exact hxy
        · exact hle a ha
      · refine Or.inr ⟨y :: l₁, l₂, by rw [hsplit]; rfl, hlt, fun a ha => ?_, h₂⟩
        rcases List.mem_cons.mp ha with ha | ha
        · rw [ha]; exact lt_of_le_of_lt hxy hlt
        · exact h₁ a ha

/-- The key sequence of the probability mapping is always the full phase
taxonomy in order, whether the model output matches the taxonomy length or
the uniform fallback is substituted. -/
theorem phase_probabilities_dict_keys (probs : List ℚ) :
    (phase_probabilities_dict probs).map Prod.fst = phaseNames := by
  unfold phase_probabilities_dict
  by_cases h : probs.length = phaseNames.length
  · rw [if_neg (by simp [h])]
    exact List.map_fst_zip phaseNames probs (le_of_eq h.symm)
  · rw [if_pos h]
    rfl

section ClaimC7

/-- C7.  The stored phase label is the taxonomy phase with the highest
probability: the probability mapping, whose keys are exactly the taxonomy in
order, splits around the chosen label's entry into earlier entries of
strictly smaller probability (so on ties the first taxonomy phase wins) and
later entries of no larger probability. -/
theorem C7_phase_label_argmax (probs : List ℚ) :
    ∃ p : ℚ, ∃ l₁ l₂ : List (String × ℚ),
      (phase_probabilities_dict probs).map Prod.fst = phaseNames ∧
      phase_probabilities_dict probs = l₁ ++ (analyze_phase_label probs, p) :: l₂ ∧
      (∀ a ∈ l₁, a.2 < p) ∧ (∀ a ∈ l₂, a.2 ≤ p) := by
  have hkeys := phase_probabilities_dict_keys probs
  have hne : phase_probabilities_dict probs ≠ [] := by
    intro hnil
    rw [hnil] at hkeys
    exact absurd hkeys.symm (by simp [phaseNames])
  obtain ⟨x, xs, hd⟩ := List.exists_cons_of_ne_nil hne
  have hargmax : dict_argmax (phase_probabilities_dict probs) =
      xs.foldl (fun acc y => if acc.2 < y.2 then y else acc) x := by
    rw [hd]
    rfl
  obtain ⟨r, hr, hcase⟩ := argmax_foldl_split xs x
  have hlabel : (analyze_phase_label probs, r.2) = r := by
    unfold analyze_phase_label
    rw [hargmax, hr]
  rcases hcase with ⟨req, hle⟩ | ⟨l₁, l₂, hsplit, hlt, h₁, h₂⟩
  · refine ⟨r.2, [], xs, hkeys, ?_, by simp, ?_⟩
    · rw [hlabel, hd, req]
      rfl
    · rw [req]
      exact hle
  · refine ⟨r.2, x :: l₁, l₂, hkeys, ?_, fun a ha => ?_, h₂⟩
    · rw [hlabel, hd, hsplit]
      rfl
    · rcases List.mem_cons.mp ha with ha | ha
      · rw [ha]; exact hlt
      · exact h₁ a ha

end ClaimC7

/-! ### Object summarizer (`SurgicalSceneAnalyzer._summarize_objects`)

The mask is flattened to a list of per-pixel class indices (coverage counting
is pixel-wise, so the 2-D layout is irrelevant).  The `areas` dictionary is
built by walking `enumerate(label_list)` in order, keeping non-background
classes with a nonzero pixel count, so its `(label, count/total)` items in
insertion order are class-index ascending.  Python's `sorted(...,
key=coverage, reverse=True)` is a stable descending sort, modelled by
`mergeSort` with `le a b := b.2 ≤ a.2` (which keeps the left element on
ties). -/

/-- The `(label, coverage)` items of the `areas` dictionary in insertion
(class-index) order. -/
def object_areas (mask : List ℕ) : List (String × ℚ) :=
  (labelList.enum.filter
      (fun p => decide (¬(mask.count p.1 = 0 ∨ p.2 = "background")))).map
    (fun p => (p.2, (mask.count p.1 : ℚ) / (mask.length : ℚ)))

/-- Method `_summarize_objects`: stable-sort the areas by coverage descending and
keep the first 5. -/
def summarize_objects (mask : List ℕ) : List (String × ℚ) :=
  ((object_areas mask).mergeSort (fun a b => decide (b.2 ≤ a.2))).take 5

/-- Two distinct members of a list occur in one of the two orders as an
embedded pair. -/
theorem pair_sublist_of_mem {α : Type} {x y : α} :
    ∀ {l : List α}, x ∈ l → y ∈ l → x ≠ y →
      [x, y] <+ l ∨ [y, x] <+ l := by
  intro l
  induction l with
  | nil => intro hx; exact absurd hx (List.not_mem_nil x)
  | cons a t ih =>
    intro hx hy hne
    rcases List.mem_cons.mp hx with rfl | hx'
    · have hy' : y ∈ t := by
        rcases List.mem_cons.mp hy with h | h
        · exact absurd h.symm hne
        · exact h
      exact Or.inl (List.Sublist.cons₂ x (List.singleton_sublist.mpr hy'))
    · rcases List.mem_cons.mp hy with rfl | hy'
      · exact Or.inr (List.Sublist.cons₂ y (List.singleton_sublist.mpr hx'))
      · rcases ih hx' hy' hne with h | h
        · exact Or.inl (h.cons a)
        · exact Or.inr (h.cons a)

/-- In a duplicate-free list the pair `[x, y]` and its reverse cannot both be
embedded unless the two elements coincide. -/
theorem eq_of_pair_sublists_nodup {α : Type} {x y : α} :
    ∀ {l : List α}, l.Nodup → [x, y] <+ l → [y, x] <+ l → x = y := by
  intro l
  induction l with
  | nil =>
    intro _ h
    exact absurd (h.subset (List.mem_cons_self x [y])) (List.not_mem_nil x)
  | cons a t ih =>
    intro hnd h1 h2
    have ha : a ∉ t := (List.nodup_cons.mp hnd).1
    have ht : t.Nodup := (List.nodup_cons.mp hnd).2
    cases h1 with
    | cons _ h1' =>
      cases h2 with
      | cons _ h2' => exact ih ht h1' h2'
      | cons₂ h2' =>
        exact absurd (h1'.subset (by simp)) ha
    | cons₂ h1' =>
      cases h2 with
      | cons _ h2' =>
        exact absurd (h2'.subset (by simp)) ha
      | cons₂ h2' => rfl

/-- With duplicate-free indices, the per-index indicator sums to at most
one. -/
theorem sum_indicator_le_one (m : ℕ) :
    ∀ (idxs : List ℕ), idxs.Nodup →
      ((idxs.map (fun i => if m = i then 1 else 0)).sum : ℕ) ≤ 1 := by
  have hzero : ∀ (js : List ℕ), m ∉ js →
      ((js.map (fun i => if m = i then 1 else 0)).sum : ℕ) = 0 := by
    intro js
    induction js with
    | nil => intro _; rfl
    | cons j js ihz =>
      intro hm
      have hj : ¬(m = j) := fun h => hm (h ▸ List.mem_cons_self j js)
      simp only [List.map_cons, List.sum_cons, if_neg hj, Nat.zero_add]
      exact ihz (fun h => hm (List.mem_cons_of_mem j h))
  intro idxs
  induction idxs with
  | nil => intro _; exact Nat.zero_le 1
  | cons i is ih =>
    intro hnd
    have hi : i ∉ is := (List.nodup_cons.mp hnd).1
    have his : is.Nodup := (List.nodup_cons.mp hnd).2
    simp only [List.map_cons, List.sum_cons]
    by_cases him : m = i
    · subst him
      rw [if_pos rfl, hzero is hi]
    · rw [if_neg him, Nat.zero_add]
      exact ih his

/-- Counting against a cons cell splits into the tail counts plus the head's
indicator. -/
theorem sum_count_cons (m : ℕ) (rest : List ℕ) :
    ∀ (idxs : List ℕ),
      ((idxs.map (fun i => (m :: rest).count i)).sum : ℕ) =
        (idxs.map (fun i => rest.count i)).sum +
          (idxs.map (fun i => if m = i then 1 else 0)).sum := by
  intro idxs
  induction idxs with
  | nil => rfl
  | cons j js ihj =>
    simp only [List.map_cons, List.sum_cons]
    rw [ihj, List.count_cons]
    have hbeq : (if m == j then 1 else 0) = (if m = j then 1 else 0) := by
      by_cases h : m = j
      · rw [if_pos (beq_iff_eq.mpr h), if_pos h]
      · rw [if_neg (fun hb => h (beq_iff_eq.mp hb)), if_neg h]
    rw [hbeq]
    omega

/-- Pixels are counted at most once across distinct class indices: the summed
counts of duplicate-free indices never exceed the mask size. -/
theorem sum_count_le_length (idxs : List ℕ) (hnd : idxs.Nodup) :
    ∀ (mask : List ℕ), ((idxs.map (fun i => mask.count i)).sum : ℕ) ≤ mask.length := by
  intro mask
  induction mask with
  | nil =>
    simp [List.count_nil]
  | cons m rest ih =>
    rw [sum_count_cons]
    have h1 := sum_indicator_le_one m idxs hnd
    simp only [List.length_cons]
    omega

/-- The sum of a nonnegative list only shrinks when truncated. -/
theorem sum_take_le_of_nonneg (L : List ℚ) (h : ∀ x ∈ L, 0 ≤ x) (n : ℕ) :
    (L.take n).sum ≤ L.sum := by
  conv_rhs => rw [← List.take_append_drop n L]
  rw [List.sum_append]
  have h0 : 0 ≤ (L.drop n).sum :=
    List.sum_nonneg (fun x hx => h x (List.drop_subset n L hx))
  linarith

/-- The `areas` items are strictly ascending in taxonomy class index. -/
theorem object_areas_pairwise_idx (mask : List ℕ) :
    (object_areas mask).Pairwise
      (fun a b => labelList.indexOf a.1 < labelList.indexOf b.1) := by
  have hkey : labelList.enum.Pairwise
      (fun p q => labelList.indexOf p.2 < labelList.indexOf q.2) := by decide
  unfold object_areas
  rw [List.pairwise_map]
  exact hkey.filter _

/-- The `areas` items are pairwise distinct. -/
theorem object_areas_nodup (mask : List ℕ) : (object_areas mask).Nodup :=
  (object_areas_pairwise_idx mask).imp
    (fun hlt heq => absurd (heq ▸ hlt) (lt_irrefl _))

/-- Membership in `areas` pins down the class index, a nonzero pixel count,
a non-background label, and the coverage value. -/
theorem mem_object_areas {mask : List ℕ} {e : String × ℚ}
    (he : e ∈ object_areas mask) :
    ∃ i, (i, e.1) ∈ labelList.enum ∧ mask.count i ≠ 0 ∧ e.1 ≠ "background" ∧
      e.2 = (mask.count i : ℚ) / (mask.length : ℚ) := by
  unfold object_areas at he
  rcases List.mem_map.mp he with ⟨p, hp, hfe⟩
  rcases List.mem_filter.mp hp with ⟨hpe, hcond⟩
  have hcond' : ¬(mask.count p.1 = 0 ∨ p.2 = "background") :=
    of_decide_eq_true hcond
  push_neg at hcond'
  subst hfe
  exact ⟨p.1, by simpa using hpe, hcond'.1, hcond'.2, rfl⟩

/-- Every summarized entry comes from the `areas` dictionary. -/
theorem mem_of_mem_summarize {mask : List ℕ} {e : String × ℚ}
    (he : e ∈ summarize_objects mask) : e ∈ object_areas mask := by
  unfold summarize_objects at he
  exact List.mem_mergeSort.mp (List.take_subset _ _ he)

/-- The class indices selected into `areas` are duplicate-free. -/
theorem object_areas_filter_fst_nodup (mask : List ℕ) :
    ((labelList.enum.filter
        (fun p => decide (¬(mask.count p.1 = 0 ∨ p.2 = "background")))).map
      Prod.fst).Nodup := by
  have h1 : (labelList.enum.filter
      (fun p => decide (¬(mask.count p.1 = 0 ∨ p.2 = "background")))) <+
        labelList.enum := List.filter_sublist _
  have h2 := h1.map Prod.fst
  rw [List.enum_map_fst] at h2
  exact h2.nodup (List.nodup_range _)

/-- The coverages recorded in `areas` total at most the whole frame. -/
theorem object_areas_sum_le_one (mask : List ℕ) :
    ((object_areas mask).map Prod.snd).sum ≤ 1 := by
  by_cases h0 : mask.length = 0
  · have hmask : mask = [] := List.length_eq_zero.mp h0
    subst hmask
    norm_num [show object_areas [] = [] from rfl]
  · have hlpos : 0 < mask.length := Nat.pos_of_ne_zero h0
    have hcast : (0 : ℚ) < (mask.length : ℚ) := by exact_mod_cast hlpos
    unfold object_areas
    rw [List.map_map]
    have hfun : (Prod.snd ∘ fun p : ℕ × String =>
          (p.2, (mask.count p.1 : ℚ) / (mask.length : ℚ))) =
        fun p : ℕ × String => (mask.count p.1 : ℚ) / (mask.length : ℚ) := rfl
    rw [hfun]
    have hnat : (((labelList.enum.filter
        (fun p => decide (¬(mask.count p.1 = 0 ∨ p.2 = "background")))).map
          Prod.fst).map (fun i => mask.count i)).sum ≤ mask.length :=
      sum_count_le_length _ (object_areas_filter_fst_nodup mask) mask
    simp only [div_eq_mul_inv]
    rw [List.sum_map_mul_right]
    have hmm : ((labelList.enum.filter
        (fun p => decide (¬(mask.count p.1 = 0 ∨ p.2 = "background")))).map
          (fun p => (mask.count p.1 : ℚ))).sum =
        ((((labelList.enum.filter
          (fun p => decide (¬(mask.count p.1 = 0 ∨ p.2 = "background")))).map
            (fun p => mask.count p.1)).sum : ℕ) : ℚ) := by
      rw [Nat.cast_list_sum, List.map_map]
      rfl
    rw [hmm, ← div_eq_mul_inv, div_le_one hcast]
    rw [List.map_map] at hnat
    exact_mod_cast hnat

section ClaimC5

/-- C5.  The object summary contains only non-background labels whose class
has at least one pixel in the mask (zero-pixel classes are omitted); it has
at most 5 entries; each coverage lies in `(0, 1]`; the coverages sum to at
most `1`; and the entries are sorted by coverage descending with ties broken
by ascending taxonomy class index. -/
theorem C5_object_summary (mask : List ℕ) :
    (∀ e ∈ summarize_objects mask,
      e.1 ≠ "background" ∧
        ∃ i, (i, e.1) ∈ labelList.enum ∧ mask.count i ≠ 0 ∧
          e.2 = (mask.count i : ℚ) / (mask.length : ℚ)) ∧
    (summarize_objects mask).length ≤ 5 ∧
    (∀ e ∈ summarize_objects mask, 0 < e.2 ∧ e.2 ≤ 1) ∧
    ((summarize_objects mask).map Prod.snd).sum ≤ 1 ∧
    (summarize_objects mask).Pairwise
      (fun a b => b.2 < a.2 ∨
        (a.2 = b.2 ∧ labelList.indexOf a.1 < labelList.indexOf b.1)) := by
  have htrans : ∀ (a b c : String × ℚ),
      (fun a b : String × ℚ => decide (b.2 ≤ a.2)) a b →
        (fun a b : String × ℚ => decide (b.2 ≤ a.2)) b c →
          (fun a b : String × ℚ => decide (b.2 ≤ a.2)) a c := by
    intro a b c hab hbc
    simp only [decide_eq_true_eq] at hab hbc ⊢
    exact le_trans hbc hab
  have htot : ∀ (a b : String × ℚ),
      ((fun a b : String × ℚ => decide (b.2 ≤ a.2)) a b ||
        (fun a b : String × ℚ => decide (b.2 ≤ a.2)) b a) := by
    intro a b
    simp only [Bool.or_eq_true, decide_eq_true_eq]
    exact le_total b.2 a.2
  have hsorted := List.sorted_mergeSort htrans htot (object_areas mask)
  have hperm := List.mergeSort_perm (object_areas mask)
    (fun a b => decide (b.2 ≤ a.2))
  have hndS : (List.mergeSort (object_areas mask)
      (fun a b => decide (b.2 ≤ a.2))).Nodup :=
    hperm.nodup_iff.mpr (object_areas_nodup mask)
  refine ⟨fun e he => ?_, ?_, fun e he => ?_, ?_, ?_⟩
  · obtain ⟨i, hi, hc, hbg, hcov⟩ := mem_object_areas (mem_of_mem_summarize he)
    exact ⟨hbg, i, hi, hc, hcov⟩
  · unfold summarize_objects
    exact List.length_take_le 5 _
  · obtain ⟨i, hi, hc, hbg, hcov⟩ := mem_object_areas (mem_of_mem_summarize he)
    have hcpos : 0 < mask.count i := Nat.pos_of_ne_zero hc
    have hclen : mask.count i ≤ mask.length := List.count_le_length i mask
    have hlpos : 0 < mask.length := lt_of_lt_of_le hcpos hclen
    constructor
    · rw [hcov]
      exact div_pos (by exact_mod_cast hcpos) (by exact_mod_cast hlpos)
    · rw [hcov, div_le_one (by exact_mod_cast hlpos)]
      exact_mod_cast hclen
  · have hnn : ∀ x ∈ (List.mergeSort (object_areas mask)
        (fun a b => decide (b.2 ≤ a.2))).map Prod.snd, 0 ≤ x := by
      intro x hx
      rcases List.mem_map.mp hx with ⟨e, he, rfl⟩
      rcases mem_object_areas (List.mem_mergeSort.mp he) with ⟨i, _, _, _, hcov⟩
      rw [hcov]
      positivity
    calc ((summarize_objects mask).map Prod.snd).sum
        = (((List.mergeSort (object_areas mask)
            (fun a b => decide (b.2 ≤ a.2))).map Prod.snd).take 5).sum := by
          unfold summarize_objects
          rw [List.map_take]
      _ ≤ ((List.mergeSort (object_areas mask)
            (fun a b => decide (b.2 ≤ a.2))).map Prod.snd).sum :=
          sum_take_le_of_nonneg _ hnn 5
      _ = ((object_areas mask).map Prod.snd).sum := (hperm.map Prod.snd).sum_eq
      _ ≤ 1 := object_areas_sum_le_one mask
  · have hfull : (List.mergeSort (object_areas mask)
        (fun a b => decide (b.2 ≤ a.2))).Pairwise
        (fun a b => b.2 < a.2 ∨
          (a.2 = b.2 ∧ labelList.indexOf a.1 < labelList.indexOf b.1)) := by
      rw [List.pairwise_iff_forall_sublist]
      intro a b hab
      have hle : b.2 ≤ a.2 :=
        of_decide_eq_true (List.pairwise_iff_forall_sublist.mp hsorted hab)
      rcases eq_or_lt_of_le hle with heq | hlt
      · refine Or.inr ⟨heq.symm, ?_⟩
        have haL : a ∈ object_areas mask :=
          List.mem_mergeSort.mp (hab.subset (by simp))
        have hbL : b ∈ object_areas mask :=
          List.mem_mergeSort.mp (hab.subset (by simp))
        have hndP : (List.mergeSort (object_areas mask)
            (fun a b => decide (b.2 ≤ a.2))).Pairwise (fun x y => x ≠ y) := hndS
        have hne : a ≠ b := List.pairwise_iff_forall_sublist.mp hndP hab
        rcases pair_sublist_of_mem haL hbL hne with hpair | hpair
        · exact List.pairwise_iff_forall_sublist.mp
            (object_areas_pairwise_idx mask) hpair
        · have hba := List.pair_sublist_mergeSort htrans htot
            (decide_eq_true (le_of_eq heq.symm)) hpair
          exact absurd (eq_of_pair_sublists_nodup hndS hab hba) hne
      · exact Or.inl hlt
    unfold summarize_objects
    exact hfull.sublist (List.take_sublist 5 _)

end ClaimC5

/-! ### Score bounds of `analyze_frame` (claim C3) -/

/-- The three score fields of the record `analyze_frame` returns —
`importance_score`, `phase_score`, `object_score` — as a function of the
softmax probability vector, the flattened arg-max mask and the caller's
quality score (`analyze_frame` lines 139–151). -/
def analyze_frame_scores (probs : List ℚ) (mask : List ℕ)
    (quality_score : ℚ) : ℚ × ℚ × ℚ :=
  let phase_prob_dict := phase_probabilities_dict probs
  let detected_objects := summarize_objects mask
  let phase_score := calculate_phase_score phase_prob_dict
  let object_score := calculate_object_score (detected_objects.map Prod.fst)
  (compute_importance quality_score phase_score object_score,
    phase_score, object_score)

/-- The phase score lies in `[0, 1]` whenever the mapping's probabilities
are nonnegative. -/
theorem calculate_phase_score_bounds (d : List (String × ℚ))
    (h : ∀ e ∈ d, 0 ≤ e.2) :
    0 ≤ calculate_phase_score d ∧ calculate_phase_score d ≤ 1 := by
  unfold calculate_phase_score
  rw [foldl_add_eq_sum, zero_add]
  constructor
  · apply le_min _ (by norm_num)
    apply List.sum_nonneg
    intro x hx
    rcases List.mem_map.mp hx with ⟨e, he, rfl⟩
    exact mul_nonneg (h e he) (phaseWeight_nonneg e.1)
  · exact min_le_right _ _

/-- The object score lies in `[0, 1]` for every label list. -/
theorem calculate_object_score_bounds (objects : List String) :
    0 ≤ calculate_object_score objects ∧ calculate_object_score objects ≤ 1 := by
  unfold calculate_object_score
  rw [foldl_add_eq_sum, zero_add]
  have h0 : 0 ≤ ((objects.map objectPriority).sum) := by
    apply List.sum_nonneg
    intro x hx
    rcases List.mem_map.mp hx with ⟨o, _, rfl⟩
    exact objectPriority_nonneg o
  constructor
  · exact div_nonneg (le_min h0 (by norm_num)) (by norm_num)
  · rw [div_le_one (by norm_num : (0 : ℚ) < 3)]
    exact min_le_right _ _

/-- The values of the probability mapping are nonnegative whenever the raw
vector's entries are (the uniform fallback trivially is). -/
theorem phase_probabilities_dict_nonneg (probs : List ℚ)
    (h : ∀ p ∈ probs, 0 ≤ p) :
    ∀ e ∈ phase_probabilities_dict probs, 0 ≤ e.2 := by
  intro e he
  unfold phase_probabilities_dict at he
  split at he
  · unfold empty_phase_probabilities at he
    rcases List.mem_map.mp he with ⟨phase, _, rfl⟩
    norm_num
  · have := List.of_mem_zip (a := e.1) (b := e.2) (by simpa using he)
    exact h e.2 this.2

section ClaimC3

/-- C3.  For every probability vector with nonnegative entries (softmax
outputs and the uniform fallback both are), every mask and every quality
score, the record's scores satisfy `0 ≤ importance_score ≤ 100`,
`0 ≤ phase_score ≤ 1` and `0 ≤ object_score ≤ 1`. -/
theorem C3_score_bounds (probs : List ℚ) (mask : List ℕ) (q : ℚ)
    (h : ∀ p ∈ probs, 0 ≤ p) :
    0 ≤ (analyze_frame_scores probs mask q).1 ∧
    (analyze_frame_scores probs mask q).1 ≤ 100 ∧
    0 ≤ (analyze_frame_scores probs mask q).2.1 ∧
    (analyze_frame_scores probs mask q).2.1 ≤ 1 ∧
    0 ≤ (analyze_frame_scores probs mask q).2.2 ∧
    (analyze_frame_scores probs mask q).2.2 ≤ 1 := by
  have hphase := calculate_phase_score_bounds (phase_probabilities_dict probs)
    (phase_probabilities_dict_nonneg probs h)
  have hobj := calculate_object_score_bounds
    ((summarize_objects mask).map Prod.fst)
  have himp := compute_importance_bounds q
    (calculate_phase_score (phase_probabilities_dict probs))
    (calculate_object_score ((summarize_objects mask).map Prod.fst))
  exact ⟨himp.1, himp.2, hphase.1, hphase.2, hobj.1, hobj.2⟩

/-- Witness for C3 on a concrete softmax-like vector, a small mask and an
in-range quality score. -/
theorem C3_score_bounds_witness :
    0 ≤ (analyze_frame_scores [1, 0, 0, 0, 0, 0] [0, 3, 3] 50).1 ∧
    (analyze_frame_scores [1, 0, 0, 0, 0, 0] [0, 3, 3] 50).1 ≤ 100 ∧
    0 ≤ (analyze_frame_scores [1, 0, 0, 0, 0, 0] [0, 3, 3] 50).2.1 ∧
    (analyze_frame_scores [1, 0, 0, 0, 0, 0] [0, 3, 3] 50).2.1 ≤ 1 ∧
    0 ≤ (analyze_frame_scores [1, 0, 0, 0, 0, 0] [0, 3, 3] 50).2.2 ∧
    (analyze_frame_scores [1, 0, 0, 0, 0, 0] [0, 3, 3] 50).2.2 ≤ 1 :=
  C3_score_bounds [1, 0, 0, 0, 0, 0] [0, 3, 3] 50 (by
    intro p hp
    rcases List.mem_cons.mp hp with rfl | hp
    · norm_num
    · simp only [List.mem_cons, List.not_mem_nil, or_false] at hp
      rcases hp with rfl | rfl | rfl | rfl | rfl <;> norm_num)

end ClaimC3

/-! ### Preview renderer (`SurgicalSceneAnalyzer.save_mask_preview`)

The canvas starts all black and the loop walks `enumerate(label_list)`,
skipping `background` and painting `canvas[seg_mask == idx] = color` with
`color = palette.get(idx, (255, 255, 255))`.  The canvas is flattened like
the mask, so each loop step is a pixel-wise `zipWith`; writing to the file
is outside the rendered-image contract. -/

/-- Lookup `palette.get(idx, (255, 255, 255))`. -/
def paletteColor (palette : List (ℕ × (ℕ × ℕ × ℕ))) (idx : ℕ) : ℕ × ℕ × ℕ :=
  (palette.lookup idx).getD (255, 255, 255)

/-- One iteration of the painting loop for the enumerated pair
`(class index, label)`. -/
def paint_step (mask : List ℕ) (palette : List (ℕ × (ℕ × ℕ × ℕ)))
    (canvas : List (ℕ × ℕ × ℕ)) (p : ℕ × String) : List (ℕ × ℕ × ℕ) :=
  if p.2 = "background" then canvas
  else
    mask.zipWith (fun m c => if m = p.1 then paletteColor palette p.1 else c)
      canvas

/-- Method `save_mask_preview`: black canvas, then the painting loop over the
enumerated label taxonomy. -/
def save_mask_preview (mask : List ℕ)
    (palette : List (ℕ × (ℕ × ℕ × ℕ))) : List (ℕ × ℕ × ℕ) :=
  labelList.enum.foldl (paint_step mask palette)
    (mask.map (fun _ => (0, 0, 0)))

/-- A paint step keeps the canvas length. -/
theorem paint_step_length (mask : List ℕ) (palette : List (ℕ × (ℕ × ℕ × ℕ)))
    (canvas : List (ℕ × ℕ × ℕ)) (p : ℕ × String)
    (hlen : canvas.length = mask.length) :
    (paint_step mask palette canvas p).length = mask.length := by
  unfold paint_step
  split
  · exact hlen
  · rw [List.length_zipWith, hlen, Nat.min_self]

/-- Pixel value of a paint step: the pixel is recolored exactly when its
mask value is the step's class index and the label is not background. -/
theorem paint_step_getD (mask : List ℕ) (palette : List (ℕ × (ℕ × ℕ × ℕ)))
    (canvas : List (ℕ × ℕ × ℕ)) (p : ℕ × String) (i : ℕ)
    (hlen : canvas.length = mask.length) (hi : i < mask.length) :
    (paint_step mask palette canvas p).getD i (0, 0, 0) =
      if p.2 ≠ "background" ∧ mask.getD i 0 = p.1
      then paletteColor palette p.1
      else canvas.getD i (0, 0, 0) := by
  unfold paint_step
  by_cases hbg : p.2 = "background"
  · rw [if_pos hbg, if_neg (fun hc => hc.1 hbg)]
  · rw [if_neg hbg]
    have him : mask[i]? = some (mask.getD i 0) := by
      rw [List.getElem?_eq_getElem hi]
      simp [List.getD_eq_getElem?_getD, List.getElem?_eq_getElem hi]
    have hic : canvas[i]? = some (canvas.getD i (0, 0, 0)) := by
      have hi' : i < canvas.length := hlen ▸ hi
      rw [List.getElem?_eq_getElem hi']
      simp [List.getD_eq_getElem?_getD, List.getElem?_eq_getElem hi']
    rw [List.getD_eq_getElem?_getD, List.getElem?_zipWith', him, hic]
    simp only [Option.map_some', Option.some_bind, Option.getD_some]
    by_cases hv : mask.getD i 0 = p.1
    · rw [if_pos hv,
        if_pos (show p.2 ≠ "background" ∧ mask.getD i 0 = p.1 from ⟨hbg, hv⟩)]
    · rw [if_neg hv,
        if_neg (show ¬(p.2 ≠ "background" ∧ mask.getD i 0 = p.1) from
          fun hc => hv hc.2)]

/-- Pixel value after folding the painting loop over any pair list: painted
with the class color of its mask value when some applicable pair matches,
otherwise untouched. -/
theorem paint_fold_getD (mask : List ℕ) (palette : List (ℕ × (ℕ × ℕ × ℕ))) :
    ∀ (pairs : List (ℕ × String)) (canvas : List (ℕ × ℕ × ℕ)),
      canvas.length = mask.length → ∀ i, i < mask.length →
        (pairs.foldl (paint_step mask palette) canvas).getD i (0, 0, 0) =
          if ∃ p ∈ pairs, p.2 ≠ "background" ∧ mask.getD i 0 = p.1
          then paletteColor palette (mask.getD i 0)
          else canvas.getD i (0, 0, 0) := by
  intro pairs
  induction pairs with
  | nil =>
    intro canvas hlen i hi
    simp
  | cons p ps ih =>
    intro canvas hlen i hi
    simp only [List.foldl_cons]
    have hlen' := paint_step_length mask palette canvas p hlen
    rw [ih (paint_step mask palette canvas p) hlen' i hi,
      paint_step_getD mask palette canvas p i hlen hi]
    by_cases hrest : ∃ q ∈ ps, q.2 ≠ "background" ∧ mask.getD i 0 = q.1
    · rcases hrest with ⟨q, hq, hqc⟩
      rw [if_pos ⟨q, hq, hqc⟩, if_pos ⟨q, List.mem_cons_of_mem p hq, hqc⟩]
    · rw [if_neg hrest]
      by_cases hp : p.2 ≠ "background" ∧ mask.getD i 0 = p.1
      · have hex : ∃ q ∈ p :: ps, q.2 ≠ "background" ∧ mask.getD i 0 = q.1 :=
          ⟨p, List.mem_cons_self p ps, hp⟩
        rw [if_pos hp, if_pos hex, hp.2]
      · have hout : ¬∃ q ∈ p :: ps, q.2 ≠ "background" ∧ mask.getD i 0 = q.1 := by
          rintro ⟨q, hq, hqc⟩
          rcases List.mem_cons.mp hq with rfl | hq'
          · exact hp hqc
          · exact hrest ⟨q, hq', hqc⟩
        rw [if_neg hout, if_neg hp]

/-- A pixel value is painted by some taxonomy pass exactly when it is a
non-background class index inside the taxonomy range. -/
theorem paint_condition_iff (v : ℕ) :
    (∃ p ∈ labelList.enum, p.2 ≠ "background" ∧ v = p.1) ↔
      ¬(v = 0 ∨ labelList.length ≤ v) := by
  have hlen9 : labelList.length = 9 := rfl
  constructor
  · rintro ⟨p, hp, hbg, hv⟩
    have hfacts : ∀ q ∈ labelList.enum, q.1 < 9 ∧ (q.2 ≠ "background" → q.1 ≠ 0) := by
      decide
    have h1 := (hfacts p hp).1
    have h2 := (hfacts p hp).2 hbg
    rw [hlen9, hv]
    push_neg
    exact ⟨h2, by omega⟩
  · intro hn
    push_neg at hn
    have h9 : v < 9 := by
      have := hn.2
      omega
    have hwit : ∀ w : Fin 9, w.val ≠ 0 →
        ∃ p ∈ labelList.enum, p.2 ≠ "background" ∧ w.val = p.1 := by
      decide
    exact hwit ⟨v, h9⟩ hn.1

section ClaimC10

/-- C10.  Preview rendering is a pure function of the mask and palette (so
repeated rendering is identical), and pixel-wise: a pixel whose class index
is `0` (background) or outside the taxonomy range stays black `(0, 0, 0)`;
any other pixel is painted its class's palette color, with missing palette
entries defaulting to white `(255, 255, 255)` rather than erroring. -/
theorem C10_preview_rendering (mask : List ℕ)
    (palette : List (ℕ × (ℕ × ℕ × ℕ))) (i : ℕ) (hi : i < mask.length) :
    save_mask_preview mask palette = save_mask_preview mask palette ∧
    (save_mask_preview mask palette).getD i (0, 0, 0) =
      (if mask.getD i 0 = 0 ∨ labelList.length ≤ mask.getD i 0 then (0, 0, 0)
        else (palette.lookup (mask.getD i 0)).getD (255, 255, 255)) := by
  refine ⟨rfl, ?_⟩
  unfold save_mask_preview
  rw [paint_fold_getD mask palette labelList.enum _ (by rw [List.length_map]) i hi]
  have hinit : (mask.map (fun _ => ((0, 0, 0) : ℕ × ℕ × ℕ))).getD i (0, 0, 0) =
      (0, 0, 0) := by
    rw [List.getD_eq_getElem?_getD, List.getElem?_map]
    cases mask[i]? <;> rfl
  rw [hinit]
  by_cases hv : mask.getD i 0 = 0 ∨ labelList.length ≤ mask.getD i 0
  · rw [if_neg (fun hex => (paint_condition_iff (mask.getD i 0)).mp hex hv),
      if_pos hv]
  · rw [if_pos ((paint_condition_iff (mask.getD i 0)).mpr hv), if_neg hv]
    rfl

/-- Witness for C10: a `1×3` mask `[0, 3, 42]` with a palette defining only
class 3; pixel 1 is painted the palette color of class 3. -/
theorem C10_preview_rendering_witness :
    save_mask_preview [0, 3, 42] [(3, (10, 20, 30))] =
      save_mask_preview [0, 3, 42] [(3, (10, 20, 30))] ∧
    (save_mask_preview [0, 3, 42] [(3, (10, 20, 30))]).getD 1 (0, 0, 0) =
      (if [0, 3, 42].getD 1 0 = 0 ∨ labelList.length ≤ [0, 3, 42].getD 1 0
        then (0, 0, 0)
        else (([(3, (10, 20, 30))].lookup ([0, 3, 42].getD 1 0)).getD
          (255, 255, 255))) :=
  C10_preview_rendering [0, 3, 42] [(3, (10, 20, 30))] 1 (by decide)

end ClaimC10

end BFH
